import Mathlib

/-!
Verification model of the `homelab-shadow` sync pipeline.

This file gives a shallow embedding, over `List Char` strings and
`List String` path segments, of:

* `pkg/sync/redact.go`: `RedactSecrets`, `splitYAMLDocuments`,
  `joinYAMLDocuments`, `isSecretDocument`, `redactSecretDocument`,
  `countIndent`, `IsOCIRegistry`, `NormalizeOCIURL`;
* the sync discovery (`DiscoverKustomizationsForSync`,
  `extractClusterFromAppPath`, `isClusterDirectory`), with the filesystem
  abstracted as the list of directories that directly contain a
  `kustomization.yaml`;
* `pkg/argocd`: `Source`/`Application` helpers (`IsHelmSource`,
  `IsKustomizeSource`, `GetHelmSources`, `GetKustomizeSources`) and
  `ResolveValueFiles`, with `os.Stat` existence abstracted as a predicate.

Theorems about these definitions settle the frozen claims about the
repository.
-/

/-- Strings are modelled as lists of characters (Go byte strings restricted to
ASCII content, where bytes and runes coincide). -/
abbrev Str := List Char

/-- Character class of Go `unicode.IsSpace` restricted to ASCII; used by
`strings.TrimSpace` in `redactSecretDocument`. -/
def goIsSpace (c : Char) : Bool :=
  c = ' ' || c = '\t' || c = '\n' || c = '\x0b' || c = '\x0c' || c = '\r'

/-- Character class of the Go regexp whitespace escape: tab, newline, form
feed, carriage return and space (no vertical tab). -/
def reIsSpace (c : Char) : Bool :=
  c = ' ' || c = '\t' || c = '\n' || c = '\x0c' || c = '\r'

/-- Model of Go `strings.TrimSpace` (ASCII): drop whitespace from both ends. -/
def trimSpace (l : Str) : Str :=
  ((l.dropWhile goIsSpace).reverse.dropWhile goIsSpace).reverse

/-- Model of `countIndent` (redact.go): leading spaces count 1, leading tabs
count 2, stop at the first other character. -/
def countIndent : Str → Nat
  | [] => 0
  | c :: rest =>
    if c = ' ' then countIndent rest + 1
    else if c = '\t' then countIndent rest + 2
    else 0

/-- Model of Go `strings.Split(s, "\n")`: the list of lines of `s`. -/
def splitNl : Str → List Str
  | [] => [[]]
  | c :: rest =>
    if c = '\n' then [] :: splitNl rest
    else
      match splitNl rest with
      | [] => [[c]]
      | l :: ls => (c :: l) :: ls

/-- Model of Go `strings.Join(lines, "\n")`. -/
def joinNl : List Str → Str
  | [] => []
  | [l] => l
  | l :: ls => l ++ '\n' :: joinNl ls

/-- Helper for `splitParts`: prepend a character to the first chunk. -/
def consHead (c : Char) : List Str → List Str
  | [] => [[c]]
  | l :: ls => (c :: l) :: ls

/-- Model of Go `strings.Split(manifest, "\n---")` as used by
`splitYAMLDocuments`: scan left to right, cutting at each (leftmost,
non-overlapping) occurrence of the four-character separator. -/
def splitParts : Str → List Str
  | '\n' :: '-' :: '-' :: '-' :: rest => [] :: splitParts rest
  | c :: rest => consHead c (splitParts rest)
  | [] => [[]]

/-- The three dashes restored in front of every chunk after the first
(`splitYAMLDocuments`). -/
def sepLine : Str := '-' :: '-' :: '-' :: []

/-- The document separator `"\n---"` that `splitParts` cuts at. -/
def sepNl : Str := '\n' :: '-' :: '-' :: '-' :: []

/-- Model of `splitYAMLDocuments` (redact.go): split on `"\n---"` and restore
the `---` prefix on every chunk after the first. -/
def restoreDocs : List Str → List Str
  | [] => []
  | p :: rest => p :: rest.map (fun q => sepLine ++ q)

/-- True iff the string ends with a newline (`strings.HasSuffix(str, "\n")`). -/
def endsNl (s : Str) : Bool := s.getLast? == some '\n'

/-- One step of `joinYAMLDocuments` for a document after the first: ensure the
accumulated output ends with a newline, restore a separator line when the
document does not carry one, then append the document. -/
def stepJoin (acc d : Str) : Str :=
  let acc1 := if acc.isEmpty then acc else if endsNl acc then acc else acc ++ ['\n']
  let acc2 := if sepLine.isPrefixOf d then acc1 else acc1 ++ ('-' :: '-' :: '-' :: '\n' :: [])
  acc2 ++ d

/-- Fold of `stepJoin` over the remaining documents. -/
def goJoin (acc : Str) : List Str → Str
  | [] => acc
  | d :: ds => goJoin (stepJoin acc d) ds

/-- Model of `joinYAMLDocuments` (redact.go). -/
def joinYAMLDocuments : List Str → Str
  | [] => []
  | d :: ds => goJoin d ds

/-- The literal `"kind:"`. -/
def kindTok : Str := "kind:".toList

/-- The literal `"Secret"`. -/
def secretTok : Str := "Secret".toList

/-- Tail check for the regexp `kind:\s*Secret\s*$` in multiline mode: after
`Secret`, some run of whitespace must reach the end of the text or a
newline (`$` matches at end of text and before a newline). -/
def reLineEnd : Str → Bool
  | [] => true
  | c :: rest => if c = '\n' then true else if reIsSpace c then reLineEnd rest else false

/-- Match of `kind:\s*Secret\s*$` anchored exactly at the start of `s`: the
literal `kind:`, a maximal run of regexp whitespace (maximal munch is
complete here because `Secret` starts with a non-whitespace character),
the literal `Secret`, then `reLineEnd`. -/
def matchKindSecretHere (s : Str) : Bool :=
  kindTok.isPrefixOf s &&
    (let r := (s.drop 5).dropWhile reIsSpace
     secretTok.isPrefixOf r && reLineEnd (r.drop 6))

/-- Try `matchKindSecretHere` at every position that follows a newline. -/
def scanAfterNl : Str → Bool
  | [] => false
  | c :: rest => (c = '\n' && matchKindSecretHere rest) || scanAfterNl rest

/-- Model of `isSecretDocument` (redact.go): the Go regexp
`(?m)^kind:\s*Secret\s*$` matches somewhere in the document, i.e. at the
start of the text or right after some newline. -/
def isSecretDocument (doc : Str) : Bool :=
  matchKindSecretHere doc || scanAfterNl doc

/-- The three data keys redacted inside a Secret document. -/
def dataPatterns : List Str := ["data:".toList, "stringData:".toList, "binaryData:".toList]

/-- Go test `trimmed == pattern || strings.HasPrefix(trimmed, pattern+" ")`. -/
def patMatches (trimmed pat : Str) : Bool :=
  trimmed == pat || (pat ++ [' ']).isPrefixOf trimmed

/-- First data pattern matching the trimmed line, in source order. -/
def findDataPattern (trimmed : Str) : Option Str :=
  dataPatterns.find? (fun pat => patMatches trimmed pat)

/-- Opening brace character. -/
def lbrace : Char := '\x7b'

/-- Closing brace character. -/
def rbrace : Char := '\x7d'

/-- Model of Go `strings.Contains(s, sub)`: `sub` occurs at some position of
`s`. -/
def containsSub (sub : Str) : Str → Bool
  | [] => sub.isEmpty
  | c :: rest => sub.isPrefixOf (c :: rest) || containsSub sub rest

/-- Go test `strings.Contains(trimmed, "\x7b\x7d") ||
strings.Contains(trimmed, "\x7b \x7d")` for the inline empty-map form. -/
def isInlineEmpty (trimmed : Str) : Bool :=
  containsSub (lbrace :: rbrace :: []) trimmed ||
    containsSub (lbrace :: ' ' :: rbrace :: []) trimmed

/-- The redaction comment text. -/
def redactedComment : Str := "# REDACTED - secrets are not included in shadow diffs".toList

/-- The synthetic placeholder line emitted below a redacted data key. -/
def placeholderLine (indent : Nat) : Str := List.replicate (indent + 2) ' ' ++ redactedComment

/-- Model of the line loop of `redactSecretDocument` (redact.go). State:
`i` is the loop index, `skip` is `skipUntilIndent` (`none` for `-1`), `rf`
is `redactedField`. While `skip` is set, empty lines and deeper-indented
lines are dropped; otherwise the first matching data pattern emits the key
line and a placeholder, and either starts a skip block (block form, where
the source's `redactedField` guard clears `rf` and continues) or, for the
inline empty-map form, falls through to the final append and so emits the
key line a second time. The source's later guard `i > 0 &&
skipUntilIndent >= 0` is unreachable (at that point `skipUntilIndent` is
`-1` on every path that gets there) and is therefore not represented. -/
def redactLines : List Str → Nat → Option Nat → Str → List Str
  | [], _, _, _ => []
  | line :: rest, i, skip, rf =>
    let skipping : Bool :=
      match skip with
      | some k => line.isEmpty || decide (k < countIndent line)
      | none => false
    if skipping then redactLines rest (i + 1) skip rf
    else
      match findDataPattern (trimSpace line) with
      | some pat =>
        let ind := countIndent line
        if isInlineEmpty (trimSpace line) then
          line :: placeholderLine ind :: line :: redactLines rest (i + 1) none pat
        else
          line :: placeholderLine ind :: redactLines rest (i + 1) (some ind) []
      | none => line :: redactLines rest (i + 1) none rf

/-- Model of `redactSecretDocument` (redact.go). -/
def redactSecretDocument (doc : Str) : Str :=
  joinNl (redactLines (splitNl doc) 0 none [])

/-- Per-document branch of the `RedactSecrets` loop. -/
def redactDoc (d : Str) : Str := if isSecretDocument d then redactSecretDocument d else d

/-- The list of documents emitted by `RedactSecrets` before recombination. -/
def syncDocs (manifest : Str) : List Str := (restoreDocs (splitParts manifest)).map redactDoc

/-- Model of `RedactSecrets` (redact.go): split into documents, redact the
Secret ones, join back. -/
def RedactSecrets (manifest : Str) : Str := joinYAMLDocuments (syncDocs manifest)

/-- Output padding used to state the separator invariant: the accumulated
output before a separator, with a newline appended when it is non-empty
and does not already end in one. -/
def padNl (s : Str) : Str :=
  if s.isEmpty then s else if endsNl s then s else s ++ ['\n']

/-- Inverse of `splitParts`: interleave the parts with the `"\n---"`
separator. -/
def unsplit : List Str → Str
  | [] => []
  | p :: rest => p ++ (rest.map (fun q => sepNl ++ q)).flatten

/-- The five-character pattern `"\n\n---"`: a blank line right before a
document separator. -/
def dblSep : Str := '\n' :: '\n' :: '-' :: '-' :: '-' :: []

/-- All characters of `w` are regexp whitespace. -/
def allReWs (w : Str) : Prop := ∀ c ∈ w, reIsSpace c = true

/-- Declarative reading of the Go regexp `(?m)^kind:\s*Secret\s*$`: the
document decomposes as a position at the start of a line, the literal
`kind:`, whitespace, the literal `Secret`, whitespace, then the end of the
text or a newline. -/
def SpecKindSecretMatch (doc : Str) : Prop :=
  ∃ pre w1 w2 post, doc = pre ++ kindTok ++ w1 ++ secretTok ++ w2 ++ post ∧
    (pre = [] ∨ pre.getLast? = some '\n') ∧ allReWs w1 ∧ allReWs w2 ∧
    (post = [] ∨ post.head? = some '\n')

/-- The scheme prefix `"oci://"`. -/
def ociScheme : Str := "oci://".toList

/-- Model of `ociRegistryPrefixes` (redact.go): well-known OCI registry
hostnames. -/
def ociRegistryPrefixes : List Str :=
  ["docker.io/".toList, "ghcr.io/".toList, "quay.io/".toList, "registry.k8s.io/".toList,
   "gcr.io/".toList, "public.ecr.aws/".toList, "mcr.microsoft.com/".toList]

/-- Model of `IsOCIRegistry` (redact.go). -/
def IsOCIRegistry (url : Str) : Bool :=
  ociScheme.isPrefixOf url || ociRegistryPrefixes.any (fun p => p.isPrefixOf url)

/-- Model of `NormalizeOCIURL` (redact.go). -/
def NormalizeOCIURL (url : Str) : Str :=
  if ociScheme.isPrefixOf url then url else ociScheme ++ url

/-- The `"$values/"` token of ArgoCD value-file references. -/
def valuesToken : Str := "$values/".toList

/-- Model of `filepath.Join(repoPath, localPath)` for already-clean paths. -/
def joinPath (a b : Str) : Str := a ++ '/' :: b

/-- The error text of `ResolveValueFiles` for a missing value file. -/
def notFoundMsg (fullPath vf : Str) : Str :=
  "value file not found: ".toList ++ fullPath ++ " (resolved from ".toList ++ vf ++ ")".toList

/-- Model of `ResolveValueFiles` (pkg/argocd): entries starting with
`$values/` are stripped and joined to the repository root and must exist
(`fsExists` abstracts the `os.Stat` check); other entries pass through.
The first missing resolved file aborts with an error. -/
def ResolveValueFiles (fsExists : Str → Bool) (valueFiles : List Str) (repoPath : Str) :
    Except Str (List Str) :=
  match valueFiles with
  | [] => .ok []
  | vf :: rest =>
    if valuesToken.isPrefixOf vf then
      let fullPath := joinPath repoPath (vf.drop 8)
      if fsExists fullPath then
        match ResolveValueFiles fsExists rest repoPath with
        | .ok r => .ok (fullPath :: r)
        | .error e => .error e
      else .error (notFoundMsg fullPath vf)
    else
      match ResolveValueFiles fsExists rest repoPath with
      | .ok r => .ok (vf :: r)
      | .error e => .error e

/-- Model of `HelmConfig` (pkg/argocd). -/
structure HelmConfig where
  releaseName : String
  valueFiles : List String
  values : String
deriving Repr, DecidableEq

/-- Model of `Source` (pkg/argocd). -/
structure Source where
  repoURL : String
  targetRevision : String
  path : String
  chart : String
  helm : Option HelmConfig
  ref : String
deriving Repr, DecidableEq

/-- Model of `Application` (pkg/argocd); the Go field `Namespace` is called
`destNamespace` because `namespace` is reserved in Lean. -/
structure Application where
  name : String
  destNamespace : String
  sources : List Source
  source : Option Source
deriving Repr, DecidableEq

/-- Model of `Source.IsHelmSource`. -/
def Source.IsHelmSource (s : Source) : Bool := s.chart != ""

/-- Model of `Source.IsKustomizeSource`. -/
def Source.IsKustomizeSource (s : Source) : Bool := s.path != "" && s.chart == ""

/-- Model of `Source.IsRefSource`. -/
def Source.IsRefSource (s : Source) : Bool := s.ref != ""

/-- Model of `Application.GetHelmSources`: scan `sources` in order, then the
legacy single `source`. -/
def Application.GetHelmSources (a : Application) : List Source :=
  let fromList := a.sources.foldl (fun acc s => if s.IsHelmSource then acc ++ [s] else acc) []
  match a.source with
  | some s => if s.IsHelmSource then fromList ++ [s] else fromList
  | none => fromList

/-- Model of `Application.GetKustomizeSources`: scan `sources` in order, then
the legacy single `source`. -/
def Application.GetKustomizeSources (a : Application) : List Source :=
  let fromList := a.sources.foldl (fun acc s => if s.IsKustomizeSource then acc ++ [s] else acc) []
  match a.source with
  | some s => if s.IsKustomizeSource then fromList ++ [s] else fromList
  | none => fromList

/-- Repository-relative directory paths, as lists of path segments. -/
abbrev DirPath := List String

/-- Glob shape `apps/*/overlays/*/*`. -/
def matchNewOverlays : DirPath → Bool
  | ["apps", _, "overlays", _, _] => true
  | _ => false

/-- Glob shape `apps/*/stack/*/*`. -/
def matchNewStack : DirPath → Bool
  | ["apps", _, "stack", _, _] => true
  | _ => false

/-- Glob shape `apps/*/db/overlays/*/*`. -/
def matchNewDb : DirPath → Bool
  | ["apps", _, "db", "overlays", _, _] => true
  | _ => false

/-- Glob shape `apps/*/overlays/*`. -/
def matchLegacyOverlays : DirPath → Bool
  | ["apps", _, "overlays", _] => true
  | _ => false

/-- Glob shape `apps/*/stack/*`. -/
def matchLegacyStack : DirPath → Bool
  | ["apps", _, "stack", _] => true
  | _ => false

/-- Glob shape `apps/*/db/overlays/*`. -/
def matchLegacyDb : DirPath → Bool
  | ["apps", _, "db", "overlays", _] => true
  | _ => false

/-- Glob shape `<root>/*/overlays/*` for the infrastructure, operators and
security roots. -/
def matchRootOverlay (root : String) : DirPath → Bool
  | [r, _, "overlays", _] => r == root
  | _ => false

/-- Model of `extractClusterFromAppPath` (discovery): segment 3 for
`apps/<app>/overlays|stack/<cluster>/<env>`, segment 4 for
`apps/<app>/db/overlays/<cluster>/<env>`. -/
def extractClusterFromAppPath : DirPath → Option String
  | "apps" :: _ :: "overlays" :: c :: _ :: _ => some c
  | "apps" :: _ :: "stack" :: c :: _ :: _ => some c
  | "apps" :: _ :: "db" :: "overlays" :: c :: _ :: _ => some c
  | _ => none

/-- Model of `isClusterDirectory` (discovery): some immediate subdirectory of
`relDir` directly contains a `kustomization.yaml`. The filesystem is
abstracted as `fsDirs`, the list of directories that directly contain a
`kustomization.yaml`. -/
def isClusterDirectory (fsDirs : List DirPath) (relDir : DirPath) : Bool :=
  fsDirs.any (fun q => q.length == relDir.length + 1 && relDir.isPrefixOf q)

/-- Cluster-filter test of the new-pattern loop: keep when the filter is
empty, the cluster is not extractable, or the extracted cluster is in the
filter. -/
def newKeep (clusters : List String) (p : DirPath) : Bool :=
  clusters.isEmpty ||
    (match extractClusterFromAppPath p with
     | some c => clusters.contains c
     | none => true)

/-- Cluster-filter test of the infrastructure loop: keep when the filter is
empty or contains the overlay name (the last path segment). -/
def infraKeep (clusters : List String) (p : DirPath) : Bool :=
  clusters.isEmpty || clusters.contains (p.getLast?.getD "")

/-- Insert into the discovered set (`dirSet[relDir] = true`). -/
def addDir (s : List DirPath) (p : DirPath) : List DirPath :=
  if p ∈ s then s else s ++ [p]

/-- The new-pattern loop body of `DiscoverKustomizationsForSync` for one glob
pattern. -/
def processNewPattern (fsDirs : List DirPath) (clusters : List String)
    (s : List DirPath) (pat : DirPath → Bool) : List DirPath :=
  (fsDirs.filter pat).foldl (fun s p => if newKeep clusters p then addDir s p else s) s

/-- The legacy-pattern loop body of `DiscoverKustomizationsForSync` for one
glob pattern: skip paths already discovered and cluster-container
directories, keep the rest with no cluster filtering. -/
def processLegacyPattern (fsDirs : List DirPath) (s : List DirPath) (pat : DirPath → Bool) :
    List DirPath :=
  (fsDirs.filter pat).foldl
    (fun s p => if p ∈ s then s else if isClusterDirectory fsDirs p then s else s ++ [p]) s

/-- The infrastructure-pattern loop body of `DiscoverKustomizationsForSync`
for one glob pattern. -/
def processInfraPattern (fsDirs : List DirPath) (clusters : List String)
    (s : List DirPath) (pat : DirPath → Bool) : List DirPath :=
  (fsDirs.filter pat).foldl (fun s p => if infraKeep clusters p then addDir s p else s) s

/-- Lexicographic order on character lists (Go byte-wise string order for
ASCII). -/
def charsLe : Str → Str → Bool
  | [], _ => true
  | _ :: _, [] => false
  | c :: cs, d :: ds => c < d || (c = d && charsLe cs ds)

/-- The joined relative path compared by `sort.Strings`. -/
def pathKey (p : DirPath) : Str := (String.intercalate "/" p).toList

/-- Path order used for the final sort. -/
def pathLe (p q : DirPath) : Bool := charsLe (pathKey p) (pathKey q)

/-- Insertion into a sorted list of paths. -/
def insertSorted (p : DirPath) : List DirPath → List DirPath
  | [] => [p]
  | q :: qs => if pathLe p q then p :: q :: qs else q :: insertSorted p qs

/-- Model of the final `sort.Strings` of the discovered set. -/
def sortPaths (l : List DirPath) : List DirPath := l.foldr insertSorted []

/-- Model of `DiscoverKustomizationsForSync`: the three new app patterns, the
three legacy app patterns, then the three infrastructure-root patterns, in
source order, followed by the sort. The filesystem is abstracted as
`fsDirs`, the list of directories that directly contain a
`kustomization.yaml`. -/
def DiscoverKustomizationsForSync (fsDirs : List DirPath) (clusters : List String) :
    List DirPath :=
  let s1 := processNewPattern fsDirs clusters [] matchNewOverlays
  let s2 := processNewPattern fsDirs clusters s1 matchNewStack
  let s3 := processNewPattern fsDirs clusters s2 matchNewDb
  let s4 := processLegacyPattern fsDirs s3 matchLegacyOverlays
  let s5 := processLegacyPattern fsDirs s4 matchLegacyStack
  let s6 := processLegacyPattern fsDirs s5 matchLegacyDb
  let s7 := processInfraPattern fsDirs clusters s6 (matchRootOverlay "infrastructure")
  let s8 := processInfraPattern fsDirs clusters s7 (matchRootOverlay "operators")
  let s9 := processInfraPattern fsDirs clusters s8 (matchRootOverlay "security")
  sortPaths s9

/-- Example application used to witness the source-classification claims: one
Helm source, one ref-only source, one Kustomize source, no legacy single
source. -/
def exHelmSource : Source :=
  { repoURL := "https://bjw-s-labs.github.io/helm-charts", targetRevision := "4.5.0",
    path := "", chart := "app-template",
    helm := some { releaseName := "krr", valueFiles := ["$values/apps/krr/base/values.yaml"],
                   values := "" },
    ref := "" }

/-- Example ref-only source (provides `$values`). -/
def exRefSource : Source :=
  { repoURL := "git@github.com:erauner/homelab-k8s.git", targetRevision := "master",
    path := "", chart := "", helm := none, ref := "values" }

/-- Example Kustomize source. -/
def exKustomizeSource : Source :=
  { repoURL := "git@github.com:erauner/homelab-k8s.git", targetRevision := "master",
    path := "apps/krr/overlays/erauner-home/production", chart := "", helm := none, ref := "" }

/-- Example multi-source application. -/
def exApp : Application :=
  { name := "krr", destNamespace := "krr",
    sources := [exHelmSource, exRefSource, exKustomizeSource], source := none }

-- ===================== theorems =====================

/-- A list is a prefix of itself extended. -/
theorem isPrefixOf_append_self (l t : Str) : l.isPrefixOf (l ++ t) = true := by
  rw [List.isPrefixOf_iff_prefix]
  exact ⟨t, rfl⟩

/-- C8: `IsOCIRegistry` accepts exactly explicit `oci://` URLs and URLs
beginning with an allow-listed registry host (witnessed on the spec's
examples), and `NormalizeOCIURL` prefixes `oci://` exactly when it is
absent, changes nothing else, and is idempotent. -/
theorem oci_detection_normalization :
    IsOCIRegistry ("oci://docker.io/x".toList) = true ∧
    IsOCIRegistry ("docker.io/x".toList) = true ∧
    IsOCIRegistry ("https://charts.example.com".toList) = false ∧
    NormalizeOCIURL ("docker.io/x".toList) = "oci://docker.io/x".toList ∧
    NormalizeOCIURL ("oci://docker.io/x".toList) = "oci://docker.io/x".toList ∧
    (∀ u : Str, ociScheme.isPrefixOf u = true → IsOCIRegistry u = true) ∧
    (∀ u : Str, ∀ p ∈ ociRegistryPrefixes, p.isPrefixOf u = true → IsOCIRegistry u = true) ∧
    (∀ u : Str, ociScheme.isPrefixOf u = true → NormalizeOCIURL u = u) ∧
    (∀ u : Str, ociScheme.isPrefixOf u = false → NormalizeOCIURL u = ociScheme ++ u) ∧
    (∀ u : Str, NormalizeOCIURL (NormalizeOCIURL u) = NormalizeOCIURL u) := by
  refine ⟨by decide, by decide, by decide, by decide, by decide, ?_, ?_, ?_, ?_, ?_⟩
  · intro u h
    simp [IsOCIRegistry, h]
  · intro u p hp h
    simp only [IsOCIRegistry, Bool.or_eq_true, List.any_eq_true]
    exact Or.inr ⟨p, hp, h⟩
  · intro u h
    simp [NormalizeOCIURL, h]
  · intro u h
    simp [NormalizeOCIURL, h]
  · intro u
    cases h : ociScheme.isPrefixOf u
    · simp [NormalizeOCIURL, h, isPrefixOf_append_self]
    · simp [NormalizeOCIURL, h]

/-- Witness for C8: the general clauses applied at a concrete registry URL. -/
theorem oci_detection_normalization_witness :
    IsOCIRegistry ("ghcr.io/erauner/app".toList) = true ∧
    NormalizeOCIURL ("oci://x".toList ++ "y".toList) =
      NormalizeOCIURL (NormalizeOCIURL ("oci://x".toList ++ "y".toList)) := by
  constructor
  · exact oci_detection_normalization.2.2.2.2.2.2.1 _ ("ghcr.io/".toList) (by decide) (by decide)
  · exact (oci_detection_normalization.2.2.2.2.2.2.2.2.2 _).symm

/-- C9: `ResolveValueFiles` resolves each `$values/` entry by stripping the
token and joining to the repository root, passes other entries through,
preserves order, and fails on the first `$values/` entry whose resolved
path does not exist, returning only an error in that case. -/
theorem resolveValueFiles_spec (fsExists : Str → Bool) (vfs : List Str) (root : Str) :
    ResolveValueFiles fsExists vfs root =
      match vfs.find? (fun vf => valuesToken.isPrefixOf vf && !fsExists (joinPath root (vf.drop 8))) with
      | none => .ok (vfs.map (fun vf =>
          if valuesToken.isPrefixOf vf then joinPath root (vf.drop 8) else vf))
      | some vf => .error (notFoundMsg (joinPath root (vf.drop 8)) vf) := by
  induction vfs with
  | nil => rfl
  | cons vf rest ih =>
    simp only [ResolveValueFiles]
    by_cases hp : valuesToken.isPrefixOf vf = true
    · by_cases he : fsExists (joinPath root (vf.drop 8)) = true
      · rw [if_pos hp, if_pos he, ih, List.find?_cons_of_neg _ (by simp [hp, he])]
        cases hfind : rest.find? (fun x => valuesToken.isPrefixOf x &&
            !fsExists (joinPath root (x.drop 8))) with
        | none =>
          have hp' : valuesToken <+: vf := List.isPrefixOf_iff_prefix.mp hp
          simp [hp']
        | some bad => simp
      · rw [if_pos hp, if_neg he, List.find?_cons_of_pos _ (by simp [hp, he])]
    · rw [if_neg hp, ih, List.find?_cons_of_neg _ (by simp [hp])]
      cases hfind : rest.find? (fun x => valuesToken.isPrefixOf x &&
          !fsExists (joinPath root (x.drop 8))) with
      | none =>
        have hp' : ¬ valuesToken <+: vf := fun h => hp (List.isPrefixOf_iff_prefix.mpr h)
        simp [hp']
      | some bad => simp

/-- The source's append loop over a list of sources equals a filter. -/
theorem foldl_append_filter (p : Source → Bool) (l : List Source) (acc : List Source) :
    l.foldl (fun acc s => if p s then acc ++ [s] else acc) acc = acc ++ l.filter p := by
  induction l generalizing acc with
  | nil => simp
  | cons s rest ih =>
    by_cases hs : p s = true
    · simp [hs, ih]
    · simp only [List.foldl_cons, hs, if_false, ih, List.filter_cons]
      simp [hs]

/-- Membership in `GetHelmSources`. -/
theorem mem_getHelmSources (a : Application) (s : Source) :
    s ∈ a.GetHelmSources ↔ (s ∈ a.sources ∨ a.source = some s) ∧ s.chart ≠ "" := by
  cases hsrc : a.source with
  | none =>
    simp only [Application.GetHelmSources, hsrc]
    rw [foldl_append_filter]
    simp [List.mem_filter, Source.IsHelmSource, bne_iff_ne]
  | some t =>
    simp only [Application.GetHelmSources, hsrc]
    by_cases ht : t.IsHelmSource = true
    · rw [if_pos ht, foldl_append_filter]
      simp only [List.nil_append, List.mem_append, List.mem_filter, List.mem_singleton]
      constructor
      · rintro (⟨hm, hc⟩ | rfl)
        · exact ⟨Or.inl hm, by simpa [Source.IsHelmSource, bne_iff_ne] using hc⟩
        · exact ⟨Or.inr rfl, by simpa [Source.IsHelmSource, bne_iff_ne] using ht⟩
      · rintro ⟨hm | hm, hc⟩
        · exact Or.inl ⟨hm, by simpa [Source.IsHelmSource, bne_iff_ne] using hc⟩
        · exact Or.inr (by injection hm.symm)
    · rw [if_neg ht, foldl_append_filter]
      simp only [List.nil_append, List.mem_filter]
      constructor
      · rintro ⟨hm, hc⟩
        exact ⟨Or.inl hm, by simpa [Source.IsHelmSource, bne_iff_ne] using hc⟩
      · rintro ⟨hm | hm, hc⟩
        · exact ⟨hm, by simpa [Source.IsHelmSource, bne_iff_ne] using hc⟩
        · exfalso
          have ht' : t = s := by
            injection hm.symm with h
            exact h.symm
          subst ht'
          exact ht (by simpa [Source.IsHelmSource, bne_iff_ne] using hc)

/-- Membership in `GetKustomizeSources`. -/
theorem mem_getKustomizeSources (a : Application) (s : Source) :
    s ∈ a.GetKustomizeSources ↔
      (s ∈ a.sources ∨ a.source = some s) ∧ s.path ≠ "" ∧ s.chart = "" := by
  cases hsrc : a.source with
  | none =>
    simp only [Application.GetKustomizeSources, hsrc]
    rw [foldl_append_filter]
    simp [List.mem_filter, Source.IsKustomizeSource, bne_iff_ne]
  | some t =>
    simp only [Application.GetKustomizeSources, hsrc]
    by_cases ht : t.IsKustomizeSource = true
    · rw [if_pos ht, foldl_append_filter]
      simp only [List.nil_append, List.mem_append, List.mem_filter, List.mem_singleton]
      constructor
      · rintro (⟨hm, hc⟩ | rfl)
        · exact ⟨Or.inl hm, by simpa [Source.IsKustomizeSource, bne_iff_ne] using hc⟩
        · exact ⟨Or.inr rfl, by simpa [Source.IsKustomizeSource, bne_iff_ne] using ht⟩
      · rintro ⟨hm | hm, hc⟩
        · exact Or.inl ⟨hm, by simpa [Source.IsKustomizeSource, bne_iff_ne] using hc⟩
        · exact Or.inr (by injection hm.symm)
    · rw [if_neg ht, foldl_append_filter]
      simp only [List.nil_append, List.mem_filter]
      constructor
      · rintro ⟨hm, hc⟩
        exact ⟨Or.inl hm, by simpa [Source.IsKustomizeSource, bne_iff_ne] using hc⟩
      · rintro ⟨hm | hm, hc⟩
        · exact ⟨hm, by simpa [Source.IsKustomizeSource, bne_iff_ne] using hc⟩
        · exfalso
          have ht' : t = s := by
            injection hm.symm with h
            exact h.symm
          subst ht'
          exact ht (by simpa [Source.IsKustomizeSource, bne_iff_ne] using hc)

/-- C10: `GetHelmSources` and `GetKustomizeSources` both scan `sources` in
order before the legacy single `source`; a source with a non-empty `chart`
is returned only by the former, a chartless source with a non-empty `path`
only by the latter, and a ref-only source by neither, so the two result
lists are disjoint. -/
theorem helm_kustomize_sources_disjoint (a : Application) (s : Source) :
    (a.GetHelmSources =
      a.sources.filter (fun t => t.IsHelmSource) ++
        a.source.toList.filter (fun t => t.IsHelmSource)) ∧
    (a.GetKustomizeSources =
      a.sources.filter (fun t => t.IsKustomizeSource) ++
        a.source.toList.filter (fun t => t.IsKustomizeSource)) ∧
    (s ∈ a.GetHelmSources ↔ (s ∈ a.sources ∨ a.source = some s) ∧ s.chart ≠ "") ∧
    (s ∈ a.GetKustomizeSources ↔
      (s ∈ a.sources ∨ a.source = some s) ∧ s.path ≠ "" ∧ s.chart = "") ∧
    ¬ (s ∈ a.GetHelmSources ∧ s ∈ a.GetKustomizeSources) ∧
    (s.chart = "" → s.path = "" →
      s ∉ a.GetHelmSources ∧ s ∉ a.GetKustomizeSources) := by
  refine ⟨?_, ?_, mem_getHelmSources a s, mem_getKustomizeSources a s, ?_, ?_⟩
  · cases hsrc : a.source with
    | none =>
      simp only [Application.GetHelmSources, hsrc]
      rw [foldl_append_filter]; simp
    | some t =>
      simp only [Application.GetHelmSources, hsrc]
      by_cases ht : t.IsHelmSource = true
      · rw [if_pos ht, foldl_append_filter]; simp [ht]
      · rw [if_neg ht, foldl_append_filter]
        simp only [Option.toList_some, List.filter_cons]
        simp [ht]
  · cases hsrc : a.source with
    | none =>
      simp only [Application.GetKustomizeSources, hsrc]
      rw [foldl_append_filter]; simp
    | some t =>
      simp only [Application.GetKustomizeSources, hsrc]
      by_cases ht : t.IsKustomizeSource = true
      · rw [if_pos ht, foldl_append_filter]; simp [ht]
      · rw [if_neg ht, foldl_append_filter]
        simp only [Option.toList_some, List.filter_cons]
        simp [ht]
  · rintro ⟨hh, hk⟩
    exact ((mem_getHelmSources a s).mp hh).2 ((mem_getKustomizeSources a s).mp hk).2.2
  · intro hc hp
    constructor
    · intro hh
      exact ((mem_getHelmSources a s).mp hh).2 hc
    · intro hk
      exact ((mem_getKustomizeSources a s).mp hk).2.1 hp

/-- Witness for C10 at the example multi-source application: the ref-only
source appears in neither result list. -/
theorem helm_kustomize_sources_disjoint_witness :
    exRefSource ∉ exApp.GetHelmSources ∧ exRefSource ∉ exApp.GetKustomizeSources :=
  (helm_kustomize_sources_disjoint exApp exRefSource).2.2.2.2.2 rfl rfl

/-- Membership after a set insertion. -/
theorem mem_addDir (s : List DirPath) (p x : DirPath) : x ∈ addDir s p ↔ x ∈ s ∨ x = p := by
  unfold addDir
  split
  · rename_i hp
    constructor
    · exact Or.inl
    · rintro (h | rfl)
      · exact h
      · exact hp
  · simp

/-- Membership after one filtered add-loop. -/
theorem mem_foldl_addIf (cond : DirPath → Bool) (x : DirPath) :
    ∀ (l s : List DirPath),
      (x ∈ l.foldl (fun s p => if cond p then addDir s p else s) s) ↔
        x ∈ s ∨ (x ∈ l ∧ cond x = true) := by
  intro l
  induction l with
  | nil => intro s; simp
  | cons p l ih =>
    intro s
    rw [List.foldl_cons, ih]
    by_cases hc : cond p = true
    · rw [if_pos hc, mem_addDir]
      simp only [List.mem_cons]
      by_cases hx : x = p
      · subst hx; tauto
      · tauto
    · rw [if_neg hc]
      simp only [List.mem_cons]
      by_cases hx : x = p
      · subst hx; tauto
      · tauto

/-- Membership after one legacy-pattern loop. -/
theorem mem_foldl_legacy (fsDirs : List DirPath) (x : DirPath) :
    ∀ (l s : List DirPath),
      (x ∈ l.foldl
        (fun s p => if p ∈ s then s else if isClusterDirectory fsDirs p then s else s ++ [p]) s) ↔
        x ∈ s ∨ (x ∈ l ∧ isClusterDirectory fsDirs x = false) := by
  intro l
  induction l with
  | nil => intro s; simp
  | cons p l ih =>
    intro s
    rw [List.foldl_cons, ih]
    by_cases hp : p ∈ s
    · rw [if_pos hp]
      simp only [List.mem_cons]
      by_cases hx : x = p
      · subst hx; tauto
      · tauto
    · rw [if_neg hp]
      by_cases hcd : isClusterDirectory fsDirs p = true
      · rw [if_pos hcd]
        simp only [List.mem_cons]
        by_cases hx : x = p
        · subst hx
          simp only [hcd]
          constructor
          · rintro (h | ⟨h1, h2⟩)
            · exact Or.inl h
            · exact Or.inr ⟨Or.inr h1, h2⟩
          · rintro (h | ⟨h1, h2⟩)
            · exact Or.inl h
            · cases h2
        · tauto
      · have hcd2 : isClusterDirectory fsDirs p = false := by simpa using hcd
        rw [if_neg hcd]
        simp only [List.mem_append, List.mem_singleton, List.mem_cons]
        by_cases hx : x = p
        · subst hx
          simp only [hcd2]
          tauto
        · tauto

/-- Membership after a sorted insertion. -/
theorem mem_insertSorted (p x : DirPath) (l : List DirPath) :
    x ∈ insertSorted p l ↔ x = p ∨ x ∈ l := by
  induction l with
  | nil => simp [insertSorted]
  | cons q qs ih =>
    unfold insertSorted
    split
    · simp
    · simp only [List.mem_cons, ih]
      tauto

/-- Sorting preserves membership. -/
theorem mem_sortPaths (x : DirPath) (l : List DirPath) : x ∈ sortPaths l ↔ x ∈ l := by
  unfold sortPaths
  induction l with
  | nil => simp
  | cons p ps ih =>
    simp only [List.foldr_cons, mem_insertSorted, List.mem_cons, ih]

/-- Membership after a new-pattern loop. -/
theorem mem_processNewPattern (fsDirs : List DirPath) (clusters : List String)
    (s : List DirPath) (pat : DirPath → Bool) (x : DirPath) :
    x ∈ processNewPattern fsDirs clusters s pat ↔
      x ∈ s ∨ (x ∈ fsDirs ∧ pat x = true ∧ newKeep clusters x = true) := by
  unfold processNewPattern
  rw [mem_foldl_addIf]
  simp only [List.mem_filter]
  tauto

/-- Membership after a legacy-pattern loop, in terms of the filesystem. -/
theorem mem_processLegacyPattern (fsDirs : List DirPath) (s : List DirPath)
    (pat : DirPath → Bool) (x : DirPath) :
    x ∈ processLegacyPattern fsDirs s pat ↔
      x ∈ s ∨ (x ∈ fsDirs ∧ pat x = true ∧ isClusterDirectory fsDirs x = false) := by
  unfold processLegacyPattern
  rw [mem_foldl_legacy]
  simp only [List.mem_filter]
  tauto

/-- Membership after an infrastructure-pattern loop. -/
theorem mem_processInfraPattern (fsDirs : List DirPath) (clusters : List String)
    (s : List DirPath) (pat : DirPath → Bool) (x : DirPath) :
    x ∈ processInfraPattern fsDirs clusters s pat ↔
      x ∈ s ∨ (x ∈ fsDirs ∧ pat x = true ∧ infraKeep clusters x = true) := by
  unfold processInfraPattern
  rw [mem_foldl_addIf]
  simp only [List.mem_filter]
  tauto

set_option maxHeartbeats 1600000 in
/-- Full membership characterization of discovery: a directory is returned
exactly when it exists, matches one of the nine glob shapes, passes that
shape's filter, and (for legacy shapes) is not a cluster container. -/
theorem mem_discover (fsDirs : List DirPath) (clusters : List String) (x : DirPath) :
    x ∈ DiscoverKustomizationsForSync fsDirs clusters ↔
      (x ∈ fsDirs ∧
        ((matchNewOverlays x || matchNewStack x || matchNewDb x) = true ∧
            newKeep clusters x = true ∨
          (matchLegacyOverlays x || matchLegacyStack x || matchLegacyDb x) = true ∧
            isClusterDirectory fsDirs x = false ∨
          (matchRootOverlay "infrastructure" x || matchRootOverlay "operators" x ||
              matchRootOverlay "security" x) = true ∧
            infraKeep clusters x = true)) := by
  unfold DiscoverKustomizationsForSync
  rw [mem_sortPaths, mem_processInfraPattern, mem_processInfraPattern, mem_processInfraPattern,
    mem_processLegacyPattern, mem_processLegacyPattern, mem_processLegacyPattern,
    mem_processNewPattern, mem_processNewPattern, mem_processNewPattern]
  simp only [List.not_mem_nil, false_or, Bool.or_eq_true]
  tauto

/-- Shape facts for a new-pattern app path, with arbitrary segment names. -/
theorem newPath_shape (a c e : String) :
    matchNewOverlays ["apps", a, "overlays", c, e] = true ∧
    matchNewStack ["apps", a, "overlays", c, e] = false ∧
    matchNewDb ["apps", a, "overlays", c, e] = false ∧
    matchLegacyOverlays ["apps", a, "overlays", c, e] = false ∧
    matchLegacyStack ["apps", a, "overlays", c, e] = false ∧
    matchLegacyDb ["apps", a, "overlays", c, e] = false ∧
    matchRootOverlay "infrastructure" ["apps", a, "overlays", c, e] = false ∧
    matchRootOverlay "operators" ["apps", a, "overlays", c, e] = false ∧
    matchRootOverlay "security" ["apps", a, "overlays", c, e] = false ∧
    extractClusterFromAppPath ["apps", a, "overlays", c, e] = some c :=
  ⟨rfl, rfl, rfl, rfl, rfl, rfl, rfl, rfl, rfl, rfl⟩

/-- Shape facts for a legacy app overlay path, with arbitrary segment names. -/
theorem legacyPath_shape (a e : String) :
    matchNewOverlays ["apps", a, "overlays", e] = false ∧
    matchNewStack ["apps", a, "overlays", e] = false ∧
    matchNewDb ["apps", a, "overlays", e] = false ∧
    matchLegacyOverlays ["apps", a, "overlays", e] = true ∧
    matchLegacyStack ["apps", a, "overlays", e] = false ∧
    matchLegacyDb ["apps", a, "overlays", e] = false ∧
    matchRootOverlay "infrastructure" ["apps", a, "overlays", e] = false ∧
    matchRootOverlay "operators" ["apps", a, "overlays", e] = false ∧
    matchRootOverlay "security" ["apps", a, "overlays", e] = false :=
  ⟨rfl, rfl, rfl, rfl, rfl, rfl, rfl, rfl, rfl⟩

/-- C6: with a non-empty cluster filter, a new-pattern path
`apps/<a>/overlays/<c>/<e>` with a build descriptor is discovered exactly
when `<c>` is in the filter, while a legacy path `apps/<a>/overlays/<e>`
with a build descriptor (and which is not a cluster container) is always
discovered, regardless of the filter. -/
theorem discover_cluster_filter (fsDirs : List DirPath) (clusters : List String)
    (a c e a2 e2 : String) (hne : clusters ≠ [])
    (hmemNew : ["apps", a, "overlays", c, e] ∈ fsDirs)
    (hmemLeg : ["apps", a2, "overlays", e2] ∈ fsDirs)
    (hnc : isClusterDirectory fsDirs ["apps", a2, "overlays", e2] = false) :
    ((["apps", a, "overlays", c, e] ∈ DiscoverKustomizationsForSync fsDirs clusters) ↔
      c ∈ clusters) ∧
    ["apps", a2, "overlays", e2] ∈ DiscoverKustomizationsForSync fsDirs clusters := by
  have hempty : clusters.isEmpty = false := by
    cases clusters with
    | nil => exact absurd rfl hne
    | cons q qs => rfl
  obtain ⟨n1, n2, n3, n4, n5, n6, n7, n8, n9, hex⟩ := newPath_shape a c e
  obtain ⟨l1, l2, l3, l4, l5, l6, l7, l8, l9⟩ := legacyPath_shape a2 e2
  constructor
  · rw [mem_discover]
    have hkeep : newKeep clusters ["apps", a, "overlays", c, e] = clusters.contains c := by
      unfold newKeep
      rw [hempty, hex]
      simp
    simp only [n1, n2, n3, n4, n5, n6, n7, n8, n9, hkeep, Bool.or_self, Bool.false_or,
      Bool.or_false, Bool.true_or, Bool.false_and, Bool.true_and, false_and, and_false,
      or_false, false_or, true_and]
    constructor
    · rintro ⟨_, hc | hf | hf⟩
      · exact List.elem_iff.mp hc
      · cases hf.1
      · cases hf.1
    · intro hc
      exact ⟨hmemNew, Or.inl (List.elem_iff.mpr hc)⟩
  · rw [mem_discover]
    refine ⟨hmemLeg, Or.inr (Or.inl ⟨?_, hnc⟩)⟩
    rw [l4]
    simp

/-- C7: a legacy-shaped directory `apps/<a>/overlays/<c>` that has a build
descriptor of its own but also contains a child `<e>` with a build
descriptor is never discovered (it is a cluster container), while the
child `apps/<a>/overlays/<c>/<e>` is discovered (empty filter). -/
theorem discover_cluster_container_suppressed (fsDirs : List DirPath) (a c e : String)
    (hcont : ["apps", a, "overlays", c] ∈ fsDirs)
    (hchild : ["apps", a, "overlays", c, e] ∈ fsDirs) :
    ["apps", a, "overlays", c] ∉ DiscoverKustomizationsForSync fsDirs [] ∧
    ["apps", a, "overlays", c, e] ∈ DiscoverKustomizationsForSync fsDirs [] := by
  have hcd : isClusterDirectory fsDirs ["apps", a, "overlays", c] = true := by
    unfold isClusterDirectory
    rw [List.any_eq_true]
    refine ⟨["apps", a, "overlays", c, e], hchild, ?_⟩
    rw [Bool.and_eq_true]
    constructor
    · simp
    · exact List.isPrefixOf_iff_prefix.mpr ⟨[e], rfl⟩
  obtain ⟨m1, m2, m3, m4, m5, m6, m7, m8, m9⟩ := legacyPath_shape a c
  obtain ⟨n1, n2, n3, n4, n5, n6, n7, n8, n9, hex⟩ := newPath_shape a c e
  constructor
  · rw [mem_discover]
    rintro ⟨_, h | h | h⟩
    · rw [m1, m2, m3] at h
      simp at h
    · rw [hcd] at h
      simp at h
    · rw [m7, m8, m9] at h
      simp at h
  · rw [mem_discover]
    refine ⟨hchild, Or.inl ⟨?_, rfl⟩⟩
    rw [n1]
    simp

/-- Witness for C6: a concrete two-entry filesystem and singleton filter. -/
theorem discover_cluster_filter_witness :
    ((["apps", "demo", "overlays", "home", "prod"] ∈
        DiscoverKustomizationsForSync
          [["apps", "demo", "overlays", "home", "prod"], ["apps", "old", "overlays", "prod"]]
          ["home"]) ↔
      "home" ∈ ["home"]) ∧
    ["apps", "old", "overlays", "prod"] ∈
      DiscoverKustomizationsForSync
        [["apps", "demo", "overlays", "home", "prod"], ["apps", "old", "overlays", "prod"]]
        ["home"] :=
  discover_cluster_filter
    [["apps", "demo", "overlays", "home", "prod"], ["apps", "old", "overlays", "prod"]]
    ["home"] "demo" "home" "prod" "old" "prod" (by decide) (by simp) (by simp) (by decide)

/-- Witness for C7: a concrete container-and-child filesystem. -/
theorem discover_cluster_container_suppressed_witness :
    ["apps", "coder", "overlays", "home"] ∉
      DiscoverKustomizationsForSync
        [["apps", "coder", "overlays", "home"], ["apps", "coder", "overlays", "home", "prod"]]
        [] ∧
    ["apps", "coder", "overlays", "home", "prod"] ∈
      DiscoverKustomizationsForSync
        [["apps", "coder", "overlays", "home"], ["apps", "coder", "overlays", "home", "prod"]]
        [] :=
  discover_cluster_container_suppressed
    [["apps", "coder", "overlays", "home"], ["apps", "coder", "overlays", "home", "prod"]]
    "coder" "home" "prod" (by simp) (by simp)

/-- Unfolding of `stepJoin` into its two independent pieces. -/
theorem stepJoin_eq (acc d : Str) :
    stepJoin acc d =
      (if acc.isEmpty then acc else if endsNl acc then acc else acc ++ ['\n']) ++
        ((if sepLine.isPrefixOf d then [] else '-' :: '-' :: '-' :: '\n' :: []) ++ d) := by
  unfold stepJoin
  by_cases h1 : acc.isEmpty <;> by_cases h2 : endsNl acc <;>
    by_cases h3 : sepLine.isPrefixOf d <;> simp [h1, h2, h3]

/-- The accumulated output is a prefix of every `stepJoin` result. -/
theorem stepJoin_pfx (acc d : Str) : ∃ u, stepJoin acc d = acc ++ u := by
  rw [stepJoin_eq]
  by_cases h1 : acc.isEmpty
  · rw [if_pos h1]
    exact ⟨_, rfl⟩
  · rw [if_neg h1]
    by_cases h2 : endsNl acc
    · rw [if_pos h2]
      exact ⟨_, rfl⟩
    · rw [if_neg h2]
      exact ⟨_, by rw [List.append_assoc]⟩

/-- A `stepJoin` on a non-empty accumulator stays non-empty. -/
theorem stepJoin_ne_nil (acc d : Str) (h : acc ≠ []) : stepJoin acc d ≠ [] := by
  obtain ⟨u, hu⟩ := stepJoin_pfx acc d
  rw [hu]
  intro hcon
  exact h (List.append_eq_nil.mp hcon).1

/-- `goJoin` splits over a list append. -/
theorem goJoin_append (acc : Str) (xs ys : List Str) :
    goJoin acc (xs ++ ys) = goJoin (goJoin acc xs) ys := by
  induction xs generalizing acc with
  | nil => rfl
  | cons d ds ih => rw [List.cons_append, goJoin, goJoin, ih]

/-- A common non-empty accumulator suffix factors out of `goJoin`. -/
theorem goJoin_extend (a : Str) (ds : List Str) :
    ∀ p : Str, p ≠ [] → goJoin (a ++ p) ds = a ++ goJoin p ds := by
  induction ds with
  | nil => intro p _; rfl
  | cons d ds ih =>
    intro p hp
    have hstep : stepJoin (a ++ p) d = a ++ stepJoin p d := by
      rw [stepJoin_eq, stepJoin_eq]
      have h1 : (a ++ p).isEmpty = false := by
        simp [List.isEmpty_iff, hp]
      have h1p : p.isEmpty = false := by
        simp [List.isEmpty_iff, hp]
      have h2 : endsNl (a ++ p) = endsNl p := by
        unfold endsNl
        rw [List.getLast?_append_of_ne_nil _ hp]
      rw [h1, h1p, h2]
      by_cases h3 : endsNl p
      · simp [h3]
      · simp [h3]
    rw [goJoin, hstep, goJoin, ih (stepJoin p d) (stepJoin_ne_nil p d hp)]

/-- The accumulated output is a prefix of every `goJoin` result. -/
theorem goJoin_pfx (ds : List Str) : ∀ acc : Str, ∃ t, goJoin acc ds = acc ++ t := by
  induction ds with
  | nil => intro acc; exact ⟨[], by simp [goJoin]⟩
  | cons d ds ih =>
    intro acc
    obtain ⟨t, ht⟩ := ih (stepJoin acc d)
    obtain ⟨u, hu⟩ := stepJoin_pfx acc d
    exact ⟨u ++ t, by rw [goJoin, ht, hu, List.append_assoc]⟩

/-- A `stepJoin` on a document that carries its `---` marker pads with at most
one newline and never inserts a synthetic separator line. -/
theorem stepJoin_sep (acc d : Str) (hd : sepLine.isPrefixOf d = true) :
    stepJoin acc d = padNl acc ++ d := by
  rw [stepJoin_eq, hd]
  unfold padNl
  simp

/-- `splitNl` never returns an empty list of lines. -/
theorem splitNl_ne_nil (s : Str) : splitNl s ≠ [] := by
  induction s with
  | nil => simp [splitNl]
  | cons c t ih =>
    unfold splitNl
    by_cases hc : c = '\n'
    · simp [hc]
    · rw [if_neg hc]
      cases h : splitNl t with
      | nil => exact absurd h ih
      | cons l ls => simp

/-- `consHead` never produces an empty chunk list. -/
theorem consHead_ne_nil (c : Char) (l : List Str) : consHead c l ≠ [] := by
  cases l <;> simp [consHead]

/-- `splitParts` never returns an empty list of chunks. -/
theorem splitParts_ne_nil (s : Str) : splitParts s ≠ [] := by
  rw [splitParts.eq_def]
  split
  · simp
  · exact consHead_ne_nil _ _
  · simp

/-- Dropping whitespace from the front cannot remove a trailing
non-whitespace character. -/
theorem dropWhile_append_singleton (c : Char) (hc : goIsSpace c = false) (u : Str) :
    ∃ v, (u ++ [c]).dropWhile goIsSpace = v ++ [c] := by
  induction u with
  | nil => exact ⟨[], by simp [List.dropWhile, hc]⟩
  | cons a u ih =>
    by_cases ha : goIsSpace a = true
    · obtain ⟨v, hv⟩ := ih
      exact ⟨v, by simp [List.dropWhile, ha, hv]⟩
    · exact ⟨a :: u, by simp [List.dropWhile, ha]⟩

/-- Trimming a line that starts with a non-whitespace character keeps that
character in front. -/
theorem trim_head_not_ws (c : Char) (hc : goIsSpace c = false) (xs : Str) :
    ∃ t, trimSpace (c :: xs) = c :: t := by
  unfold trimSpace
  have h1 : (c :: xs).dropWhile goIsSpace = c :: xs := by
    simp [List.dropWhile, hc]
  rw [h1, List.reverse_cons]
  obtain ⟨v, hv⟩ := dropWhile_append_singleton c hc xs.reverse
  rw [hv, List.reverse_append]
  exact ⟨v.reverse, rfl⟩

/-- A trimmed line beginning with a dash matches no data pattern. -/
theorem findDataPattern_dash (t : Str) : findDataPattern ('-' :: t) = none := rfl

/-- One step of the redaction loop on a non-matching line with no active skip
block. -/
theorem redactLines_cons_nomatch (l : Str) (hl : findDataPattern (trimSpace l) = none)
    (rest : List Str) (i : Nat) (rf : Str) :
    redactLines (l :: rest) i none rf = l :: redactLines rest (i + 1) none rf := by
  rw [redactLines.eq_def]
  simp [hl]

/-- The first line is a prefix of a joined line list. -/
theorem joinNl_cons_pfx (l : Str) (ls : List Str) : ∃ t, joinNl (l :: ls) = l ++ t := by
  cases ls with
  | nil => exact ⟨[], by simp [joinNl]⟩
  | cons m ms => exact ⟨'\n' :: joinNl (m :: ms), rfl⟩

/-- Splitting a line list that starts with a non-newline character. -/
theorem splitNl_cons_not_nl (c : Char) (hc : ¬ c = '\n') (t : Str) :
    ∃ h rest, splitNl t = h :: rest ∧ splitNl (c :: t) = (c :: h) :: rest := by
  cases hs : splitNl t with
  | nil => exact absurd hs (splitNl_ne_nil t)
  | cons h rest =>
    refine ⟨h, rest, rfl, ?_⟩
    rw [splitNl.eq_def]
    simp only [hs, if_neg hc]

/-- Redacting a document that carries the restored `---` marker keeps the
marker in front: the separator line never matches a data pattern and is
never inside a skip block. -/
theorem redactSecretDocument_preserves_dashes (q : Str) :
    sepLine.isPrefixOf (redactSecretDocument ('-' :: '-' :: '-' :: q)) = true := by
  obtain ⟨hA, rA, hsA, heA⟩ := splitNl_cons_not_nl '-' (by decide) q
  obtain ⟨hB, rB, hsB, heB⟩ := splitNl_cons_not_nl '-' (by decide) ('-' :: q)
  rw [heA] at hsB
  injection hsB with e1 e2
  subst e1
  subst e2
  obtain ⟨hC, rC, hsC, heC⟩ := splitNl_cons_not_nl '-' (by decide) ('-' :: '-' :: q)
  rw [heB] at hsC
  injection hsC with e3 e4
  subst e3
  subst e4
  unfold redactSecretDocument
  rw [heC]
  obtain ⟨t0, ht0⟩ := trim_head_not_ws '-' (by decide) ('-' :: '-' :: hA)
  have hnomatch : findDataPattern (trimSpace ('-' :: '-' :: '-' :: hA)) = none := by
    rw [ht0]
    exact findDataPattern_dash t0
  rw [redactLines_cons_nomatch _ hnomatch]
  obtain ⟨t, ht⟩ := joinNl_cons_pfx ('-' :: '-' :: '-' :: hA) (redactLines rA 1 none [])
  rw [ht]
  exact List.isPrefixOf_iff_prefix.mpr ⟨hA ++ t, rfl⟩

/-- Every document after the first emitted by `RedactSecrets` carries the
`---` marker in front. -/
theorem syncDocs_tail_sep (m : Str) :
    ∀ d ∈ (syncDocs m).tail, sepLine.isPrefixOf d = true := by
  unfold syncDocs
  cases hp : splitParts m with
  | nil => exact absurd hp (splitParts_ne_nil m)
  | cons p ps =>
    unfold restoreDocs
    rw [List.map_cons, List.tail_cons, List.map_map]
    intro d hd
    obtain ⟨q, _, hq⟩ := List.mem_map.mp hd
    rw [← hq]
    simp only [Function.comp_apply]
    unfold redactDoc
    by_cases hsec : isSecretDocument (sepLine ++ q) = true
    · rw [if_pos hsec]
      exact redactSecretDocument_preserves_dashes q
    · rw [if_neg hsec]
      exact isPrefixOf_append_self sepLine q

/-- The padded accumulator is empty or ends with a newline. -/
theorem padNl_spec (s : Str) : padNl s = [] ∨ (padNl s).getLast? = some '\n' := by
  unfold padNl
  by_cases h1 : s.isEmpty
  · rw [if_pos h1]
    exact Or.inl (List.isEmpty_iff.mp h1)
  · rw [if_neg h1]
    by_cases h2 : endsNl s
    · rw [if_pos h2]
      exact Or.inr (by simpa [endsNl] using h2)
    · rw [if_neg h2]
      exact Or.inr (by simp)

/-- C2: in the output of `RedactSecrets` every document separator begins at
the start of its own line: at every document boundary the output splits
into a part that is empty or ends with a newline (the recombination
inserts the newline when it is missing) followed by the remaining
documents, which start with `---`. -/
theorem redactSecrets_separator_own_line (m : Str) (i : Nat) (h1 : 0 < i)
    (h2 : i < (syncDocs m).length) :
    ∃ A B, RedactSecrets m = A ++ B ∧ (A = [] ∨ A.getLast? = some '\n') ∧
      sepLine.isPrefixOf B = true ∧
      A = padNl (joinYAMLDocuments ((syncDocs m).take i)) ∧
      B = joinYAMLDocuments ((syncDocs m).drop i) := by
  obtain ⟨j, rfl⟩ : ∃ j, i = j + 1 := ⟨i - 1, by omega⟩
  cases hdocs : syncDocs m with
  | nil =>
    rw [hdocs] at h2
    exact absurd h2 (by simp)
  | cons d0 rest =>
    have hlen : j < rest.length := by
      rw [hdocs] at h2
      simp only [List.length_cons] at h2
      omega
    cases hr2 : rest.drop j with
    | nil =>
      rw [List.drop_eq_nil_iff] at hr2
      omega
    | cons di r2 =>
      have hdi_mem : di ∈ rest := by
        have hmem : di ∈ rest.drop j := by
          rw [hr2]
          exact List.mem_cons_self _ _
        exact List.drop_subset _ _ hmem
      have hdi : sepLine.isPrefixOf di = true := by
        apply syncDocs_tail_sep m
        rw [hdocs, List.tail_cons]
        exact hdi_mem
      have hdi_ne : di ≠ [] := by
        intro hcon
        rw [hcon] at hdi
        cases hdi
      have hrest : rest = rest.take j ++ (di :: r2) := by
        rw [← hr2, List.take_append_drop]
      have htake : (d0 :: rest).take (j + 1) = d0 :: rest.take j := by simp
      have hdrop : (d0 :: rest).drop (j + 1) = di :: r2 := by
        rw [List.drop_succ_cons, hr2]
      refine ⟨_, _, ?_, ?_, ?_, rfl, rfl⟩
      · unfold RedactSecrets
        rw [hdocs, joinYAMLDocuments, htake, hdrop, joinYAMLDocuments, joinYAMLDocuments]
        calc goJoin d0 rest
            = goJoin d0 (rest.take j ++ (di :: r2)) := by rw [← hrest]
          _ = goJoin (goJoin d0 (rest.take j)) (di :: r2) := goJoin_append _ _ _
          _ = goJoin (stepJoin (goJoin d0 (rest.take j)) di) r2 := rfl
          _ = goJoin (padNl (goJoin d0 (rest.take j)) ++ di) r2 := by
              rw [stepJoin_sep _ _ hdi]
          _ = padNl (goJoin d0 (rest.take j)) ++ goJoin di r2 :=
              goJoin_extend _ _ di hdi_ne
      · exact padNl_spec _
      · rw [hdrop, joinYAMLDocuments]
        obtain ⟨t, ht⟩ := goJoin_pfx r2 di
        rw [ht]
        obtain ⟨u, hu⟩ := List.isPrefixOf_iff_prefix.mp hdi
        exact List.isPrefixOf_iff_prefix.mpr ⟨u ++ t, by rw [← List.append_assoc, hu]⟩

/-- Witness for C2 on a concrete two-document manifest. -/
theorem redactSecrets_separator_own_line_witness :
    ∃ A B, RedactSecrets ("a: 1\n---\nb: 2".toList) = A ++ B ∧
      (A = [] ∨ A.getLast? = some '\n') ∧ sepLine.isPrefixOf B = true ∧
      A = padNl (joinYAMLDocuments ((syncDocs ("a: 1\n---\nb: 2".toList)).take 1)) ∧
      B = joinYAMLDocuments ((syncDocs ("a: 1\n---\nb: 2".toList)).drop 1) :=
  redactSecrets_separator_own_line ("a: 1\n---\nb: 2".toList) 1 (by decide) (by decide)

/-- Flattening restored separators over a non-empty chunk list. -/
theorem flatten_sep_cons (q : Str) (qs : List Str) :
    ((q :: qs).map (fun p => sepNl ++ p)).flatten = sepNl ++ unsplit (q :: qs) := by
  rw [List.map_cons, List.flatten_cons, unsplit, List.append_assoc]

/-- Unfolding of `splitParts` on a cons cell that does not start the
separator. -/
theorem splitParts_cons_eq (c : Char) (rest : Str)
    (hne : ∀ r : Str, c = '\n' → rest = '-' :: '-' :: '-' :: r → False) :
    splitParts (c :: rest) = consHead c (splitParts rest) := by
  rw [splitParts.eq_def]
  split
  · rename_i r heq
    injection heq with h1 h2
    exact (hne r h1 h2).elim
  · rename_i c2 rest2 _ heq
    injection heq with h1 h2
    subst h1
    subst h2
    rfl
  · rename_i heq
    cases heq

/-- `unsplit` is a left inverse of `splitParts`: splitting on `"\n---"` and
interleaving the separator back reconstructs the input. -/
theorem unsplit_splitParts (s : Str) : unsplit (splitParts s) = s := by
  induction s using splitParts.induct with
  | case1 rest ih =>
    show unsplit ([] :: splitParts rest) = _
    cases hq : splitParts rest with
    | nil => exact absurd hq (splitParts_ne_nil rest)
    | cons q qs =>
      rw [unsplit, flatten_sep_cons, ← hq, ih, List.nil_append]
      rfl
  | case2 c rest hne ih =>
    rw [splitParts_cons_eq c rest hne]
    cases hq : splitParts rest with
    | nil => exact absurd hq (splitParts_ne_nil rest)
    | cons q qs =>
      rw [hq] at ih
      show unsplit ((c :: q) :: qs) = c :: rest
      rw [unsplit, List.cons_append]
      rw [unsplit] at ih
      rw [ih]
  | case3 => rfl

/-- The tail of the chunk list is non-trivial only when the input starts with
the separator: an empty first chunk together with further chunks forces a
`"\n---"` prefix. -/
theorem splitParts_empty_head (s : Str) (ps : List Str) (heq : splitParts s = [] :: ps) :
    ps = [] ∨ sepNl <+: s := by
  rw [splitParts.eq_def] at heq
  revert heq
  split
  · rename_i rest
    intro _
    exact Or.inr ⟨rest, rfl⟩
  · rename_i c rest hne
    intro heq
    cases hq : splitParts rest with
    | nil => exact absurd hq (splitParts_ne_nil rest)
    | cons q qs =>
      rw [hq, consHead] at heq
      cases heq
  · intro heq
    cases heq
    exact Or.inl rfl

/-- `endsNl` looks only at the last character. -/
theorem endsNl_append (x y : Str) (hy : y ≠ []) : endsNl (x ++ y) = endsNl y := by
  unfold endsNl
  rw [List.getLast?_append_of_ne_nil _ hy]

/-- Without a `"\n\n---"` occurrence, no chunk before the last ends in a
newline. -/
theorem splitParts_dropLast_endsNl (s : Str) (h : ¬ dblSep <:+: s) :
    ∀ p ∈ (splitParts s).dropLast, endsNl p = false := by
  induction s using splitParts.induct with
  | case1 rest ih =>
    have h' : ¬ dblSep <:+: rest := fun hcon =>
      h (hcon.trans ⟨['\n', '-', '-', '-'], [], by simp⟩)
    show ∀ p ∈ ([] :: splitParts rest).dropLast, endsNl p = false
    cases hq : splitParts rest with
    | nil => exact absurd hq (splitParts_ne_nil rest)
    | cons q qs =>
      intro p hp
      rw [show ([] :: q :: qs).dropLast = [] :: (q :: qs).dropLast from rfl] at hp
      rcases List.mem_cons.mp hp with rfl | hp
      · rfl
      · exact ih h' p (by rw [hq]; exact hp)
  | case2 c rest hne ih =>
    have h' : ¬ dblSep <:+: rest := fun hcon =>
      h (hcon.trans (List.infix_cons (List.infix_refl rest)))
    rw [splitParts_cons_eq c rest hne]
    cases hq : splitParts rest with
    | nil => exact absurd hq (splitParts_ne_nil rest)
    | cons q qs =>
      show ∀ p ∈ ((c :: q) :: qs).dropLast, endsNl p = false
      cases qs with
      | nil =>
        intro p hp
        simp at hp
      | cons q2 qs2 =>
        intro p hp
        rw [show ((c :: q) :: q2 :: qs2).dropLast = (c :: q) :: (q2 :: qs2).dropLast from rfl]
          at hp
        rcases List.mem_cons.mp hp with rfl | hp
        · cases q with
          | nil =>
            rcases splitParts_empty_head rest (q2 :: qs2) hq with hnil | hpre
            · cases hnil
            · have hcne : ¬ c = '\n' := by
                intro hc
                subst hc
                obtain ⟨r2, hr2⟩ := hpre
                exact h ⟨[], r2, by rw [← hr2]; rfl⟩
              simp [endsNl, hcne]
          | cons a t =>
            have hq2 : endsNl (a :: t) = false := by
              apply ih h' (a :: t)
              rw [hq]
              rw [show ((a :: t) :: q2 :: qs2).dropLast =
                (a :: t) :: (q2 :: qs2).dropLast from rfl]
              exact List.mem_cons_self _ _
            rw [show (c :: a :: t : Str) = [c] ++ (a :: t) from rfl,
              endsNl_append [c] _ (by simp)]
            exact hq2
        · apply ih h' p
          rw [hq]
          rw [show ((q : Str) :: q2 :: qs2).dropLast = q :: (q2 :: qs2).dropLast from rfl]
          exact List.mem_cons_of_mem _ hp
  | case3 =>
    intro p hp
    simp [splitParts] at hp

/-- A `stepJoin` on a non-empty accumulator without a trailing newline and a
document carrying the restored `---` marker inserts exactly the newline
that splitting consumed. -/
theorem stepJoin_restored (a p : Str) (ha : a ≠ []) (hae : endsNl a = false) :
    stepJoin a (sepLine ++ p) = a ++ (sepNl ++ p) := by
  rw [stepJoin_eq, isPrefixOf_append_self]
  have h1 : a.isEmpty = false := by simp [List.isEmpty_iff, ha]
  rw [h1, hae]
  simp [sepNl, sepLine]

/-- Rejoining restored chunks whose non-last members do not end in a newline
reproduces the separator-interleaved text. -/
theorem goJoin_restored (ps : List Str) :
    ∀ a : Str, a ≠ [] → endsNl a = false → (∀ p ∈ ps.dropLast, endsNl p = false) →
      goJoin a (ps.map (fun q => sepLine ++ q)) =
        a ++ (ps.map (fun q => sepNl ++ q)).flatten := by
  induction ps with
  | nil =>
    intro a _ _ _
    simp [goJoin]
  | cons p ps ih =>
    intro a ha hae hdl
    rw [List.map_cons, goJoin, stepJoin_restored a p ha hae]
    cases ps with
    | nil =>
      simp [goJoin]
    | cons p2 ps2 =>
      have hp : endsNl p = false := by
        apply hdl
        rw [show ((p : Str) :: p2 :: ps2).dropLast = p :: (p2 :: ps2).dropLast from rfl]
        exact List.mem_cons_self _ _
      have hane : (a ++ (sepNl ++ p) : Str) ≠ [] := by simp [sepNl]
      have haee : endsNl (a ++ (sepNl ++ p)) = false := by
        rw [endsNl_append a _ (by simp [sepNl])]
        cases p with
        | nil => rfl
        | cons b t =>
          rw [endsNl_append sepNl _ (by simp)]
          exact hp
      have hdl2 : ∀ q ∈ (p2 :: ps2).dropLast, endsNl q = false := by
        intro q hq
        apply hdl
        rw [show ((p : Str) :: p2 :: ps2).dropLast = p :: (p2 :: ps2).dropLast from rfl]
        exact List.mem_cons_of_mem _ hq
      rw [ih (a ++ (sepNl ++ p)) hane haee hdl2]
      simp

/-- Non-Secret documents pass through the per-document loop unchanged. -/
theorem map_redactDoc_id (docs : List Str) (h : ∀ d ∈ docs, isSecretDocument d = false) :
    docs.map redactDoc = docs := by
  induction docs with
  | nil => rfl
  | cons d ds ih =>
    rw [List.map_cons, ih (fun x hx => h x (List.mem_cons_of_mem _ hx))]
    have hd := h d (List.mem_cons_self _ _)
    rw [redactDoc, if_neg (by simp [hd])]

/-- C5 (amended): on an input that does not begin with `"\n---"`, has no
blank line directly before a separator (`"\n\n---"`), and contains no
document classified as a Secret, `RedactSecrets` returns the input
byte-for-byte, and is therefore idempotent on such inputs. -/
theorem redactSecrets_non_secret_passthrough (m : Str)
    (hstart : ¬ sepNl <+: m) (hdbl : ¬ dblSep <:+: m)
    (hns : ∀ d ∈ restoreDocs (splitParts m), isSecretDocument d = false) :
    RedactSecrets m = m ∧ RedactSecrets (RedactSecrets m) = RedactSecrets m := by
  have hmain : RedactSecrets m = m := by
    unfold RedactSecrets syncDocs
    rw [map_redactDoc_id _ hns]
    cases hp : splitParts m with
    | nil => exact absurd hp (splitParts_ne_nil m)
    | cons p0 ps =>
      cases ps with
      | nil =>
        have hm : m = p0 := by
          have := unsplit_splitParts m
          rw [hp] at this
          simpa [unsplit] using this.symm
        rw [hm]
        rfl
      | cons p1 ps1 =>
        have hp0 : p0 ≠ [] := by
          intro hcon
          subst hcon
          rcases splitParts_empty_head m (p1 :: ps1) hp with h1 | h2
          · cases h1
          · exact hstart h2
        have hp0e : endsNl p0 = false := by
          apply splitParts_dropLast_endsNl m hdbl
          rw [hp]
          rw [show ((p0 : Str) :: p1 :: ps1).dropLast = p0 :: (p1 :: ps1).dropLast from rfl]
          exact List.mem_cons_self _ _
        have hdl : ∀ p ∈ (p1 :: ps1).dropLast, endsNl p = false := by
          intro q hq
          apply splitParts_dropLast_endsNl m hdbl
          rw [hp]
          rw [show ((p0 : Str) :: p1 :: ps1).dropLast = p0 :: (p1 :: ps1).dropLast from rfl]
          exact List.mem_cons_of_mem _ hq
        calc joinYAMLDocuments (restoreDocs (p0 :: p1 :: ps1))
            = goJoin p0 ((p1 :: ps1).map (fun q => sepLine ++ q)) := rfl
          _ = p0 ++ ((p1 :: ps1).map (fun q => sepNl ++ q)).flatten :=
              goJoin_restored _ p0 hp0 hp0e hdl
          _ = unsplit (p0 :: p1 :: ps1) := rfl
          _ = m := by rw [← hp, unsplit_splitParts]
  exact ⟨hmain, by rw [hmain, hmain]⟩

/-- Witness for C5 (amended) on a concrete two-document non-Secret manifest. -/
theorem redactSecrets_non_secret_passthrough_witness :
    RedactSecrets ("kind: ConfigMap\ndata:\n  a: b\n---\nx: 1".toList) =
        "kind: ConfigMap\ndata:\n  a: b\n---\nx: 1".toList ∧
      RedactSecrets (RedactSecrets ("kind: ConfigMap\ndata:\n  a: b\n---\nx: 1".toList)) =
        RedactSecrets ("kind: ConfigMap\ndata:\n  a: b\n---\nx: 1".toList) :=
  redactSecrets_non_secret_passthrough ("kind: ConfigMap\ndata:\n  a: b\n---\nx: 1".toList)
    (by decide) (by decide) (by decide)

/-- Counterexample to C5 as stated: this input contains no Secret document,
yet `RedactSecrets` drops the blank line before the separator, so the
output is not byte-identical to the input. -/
theorem redactSecrets_passthrough_claim_false :
    (∀ d ∈ restoreDocs (splitParts ("a: b\n\n---\nkind: ConfigMap".toList)),
      isSecretDocument d = false) ∧
    RedactSecrets ("a: b\n\n---\nkind: ConfigMap".toList) ≠
      "a: b\n\n---\nkind: ConfigMap".toList := by
  constructor
  · decide
  · decide

/-- C4 evaluation: on a Secret whose `data` key uses the inline empty-map
form, the code emits the key line, then a placeholder comment, then the
key line a second time (the inline branch resets the skip state and falls
through to the loop's final append), so the document is not left as-is.
The claim says the key line is emitted once with nothing added. -/
theorem redactSecrets_inline_empty_map_bug :
    RedactSecrets ("kind: Secret\ndata: \x7b\x7d\ntype: Opaque".toList) =
      ("kind: Secret\ndata: \x7b\x7d\n  # REDACTED - secrets are not included in shadow diffs\ndata: \x7b\x7d\ntype: Opaque".toList) ∧
    RedactSecrets ("kind: Secret\ndata: \x7b\x7d\ntype: Opaque".toList) ≠
      ("kind: Secret\ndata: \x7b\x7d\ntype: Opaque".toList) := by
  constructor
  · decide
  · decide

/-- Declarative reading of the trailing `\s*$` check: some whitespace run
reaches the end of the text or a newline. -/
theorem reLineEnd_iff (l : Str) :
    reLineEnd l = true ↔
      ∃ w2 post, l = w2 ++ post ∧ allReWs w2 ∧ (post = [] ∨ post.head? = some '\n') := by
  induction l with
  | nil =>
    constructor
    · intro _
      exact ⟨[], [], rfl, fun c hc => absurd hc (List.not_mem_nil c), Or.inl rfl⟩
    · intro _
      rfl
  | cons c rest ih =>
    by_cases hc : c = '\n'
    · subst hc
      constructor
      · intro _
        exact ⟨[], '\n' :: rest, rfl, fun x hx => absurd hx (List.not_mem_nil x),
          Or.inr rfl⟩
      · intro _
        rfl
    · by_cases hw : reIsSpace c = true
      · have hstep : reLineEnd (c :: rest) = reLineEnd rest := by
          rw [reLineEnd, if_neg hc, if_pos hw]
        rw [hstep, ih]
        constructor
        · rintro ⟨w2, post, rfl, hall, hpost⟩
          exact ⟨c :: w2, post, rfl, by
            intro x hx
            rcases List.mem_cons.mp hx with rfl | hx
            · exact hw
            · exact hall x hx, hpost⟩
        · rintro ⟨w2, post, heq, hall, hpost⟩
          cases w2 with
          | nil =>
            rw [List.nil_append] at heq
            rcases hpost with rfl | hhead
            · cases heq
            · rw [← heq] at hhead
              simp at hhead
              exact absurd hhead hc
          | cons d w2t =>
            injection heq with h1 h2
            subst h1
            exact ⟨w2t, post, h2, fun x hx => hall x (List.mem_cons_of_mem _ hx), hpost⟩
      · have hstep : reLineEnd (c :: rest) = false := by
          rw [reLineEnd, if_neg hc, if_neg hw]
        rw [hstep]
        constructor
        · intro hcon
          cases hcon
        · rintro ⟨w2, post, heq, hall, hpost⟩
          cases w2 with
          | nil =>
            rw [List.nil_append] at heq
            rcases hpost with rfl | hhead
            · cases heq
            · rw [← heq] at hhead
              simp at hhead
              exact absurd hhead hc
          | cons d w2t =>
            injection heq with h1 h2
            subst h1
            exact absurd (hall c (List.mem_cons_self _ _)) hw

/-- Whitespace runs are transparent to `dropWhile`. -/
theorem dropWhile_append_all (p : Char → Bool) (w x : Str) (hw : ∀ c ∈ w, p c = true) :
    (w ++ x).dropWhile p = x.dropWhile p := by
  induction w with
  | nil => rfl
  | cons c wt ih =>
    rw [List.cons_append, List.dropWhile_cons, if_pos (hw c (List.mem_cons_self _ _))]
    exact ih (fun d hd => hw d (List.mem_cons_of_mem _ hd))

/-- Declarative reading of the anchored matcher: `kind:`, whitespace,
`Secret`, then a line end. -/
theorem matchKindSecretHere_iff (s : Str) :
    matchKindSecretHere s = true ↔
      ∃ w1 w2 post, s = kindTok ++ w1 ++ secretTok ++ w2 ++ post ∧
        allReWs w1 ∧ allReWs w2 ∧ (post = [] ∨ post.head? = some '\n') := by
  constructor
  · intro h
    rw [matchKindSecretHere] at h
    rw [Bool.and_eq_true] at h
    obtain ⟨hpre, hrest⟩ := h
    obtain ⟨r, hr⟩ := List.isPrefixOf_iff_prefix.mp hpre
    have hdrop : s.drop 5 = r := by
      rw [← hr, show (5 : Nat) = kindTok.length from rfl, List.drop_left]
    rw [hdrop] at hrest
    rw [Bool.and_eq_true] at hrest
    obtain ⟨hsec, hend⟩ := hrest
    obtain ⟨rest, hrest2⟩ := List.isPrefixOf_iff_prefix.mp hsec
    have hr_split : r = r.takeWhile reIsSpace ++ r.dropWhile reIsSpace :=
      (List.takeWhile_append_dropWhile (p := reIsSpace) (l := r)).symm
    have hdrop6 : (r.dropWhile reIsSpace).drop 6 = rest := by
      rw [← hrest2, show (6 : Nat) = secretTok.length from rfl, List.drop_left]
    rw [hdrop6] at hend
    obtain ⟨w2, post, hsplit, hall2, hpost⟩ := (reLineEnd_iff rest).mp hend
    have hr2 : r = r.takeWhile reIsSpace ++ (secretTok ++ (w2 ++ post)) := by
      rw [← hsplit, hrest2]
      exact hr_split
    refine ⟨r.takeWhile reIsSpace, w2, post, ?_, ?_, hall2, hpost⟩
    · rw [← hr]
      conv_lhs => rw [hr2]
      simp
    · intro c hc
      exact List.mem_takeWhile_imp hc
  · rintro ⟨w1, w2, post, rfl, hall1, hall2, hpost⟩
    rw [matchKindSecretHere, Bool.and_eq_true]
    refine ⟨?_, ?_⟩
    · exact List.isPrefixOf_iff_prefix.mpr ⟨w1 ++ secretTok ++ w2 ++ post, by simp⟩
    · have h5 : ((((kindTok ++ w1) ++ secretTok) ++ w2) ++ post : Str).drop 5 =
          w1 ++ (secretTok ++ (w2 ++ post)) := by
        rw [show ((((kindTok ++ w1) ++ secretTok) ++ w2) ++ post : Str) =
          kindTok ++ (w1 ++ (secretTok ++ (w2 ++ post))) from by simp]
        rw [show (5 : Nat) = kindTok.length from rfl]
        exact List.drop_left _ _
      rw [h5, dropWhile_append_all reIsSpace w1 _ hall1]
      have hdw : (List.dropWhile reIsSpace (secretTok ++ (w2 ++ post))) =
          secretTok ++ (w2 ++ post) := rfl
      rw [hdw, Bool.and_eq_true]
      refine ⟨List.isPrefixOf_iff_prefix.mpr ⟨w2 ++ post, rfl⟩, ?_⟩
      have h6 : (secretTok ++ (w2 ++ post) : Str).drop 6 = w2 ++ post := by
        rw [show (6 : Nat) = secretTok.length from rfl]
        exact List.drop_left _ _
      rw [h6]
      exact (reLineEnd_iff _).mpr ⟨w2, post, rfl, hall2, hpost⟩

/-- Declarative reading of the newline scan: a match exists somewhere after a
newline. -/
theorem scanAfterNl_iff (s : Str) :
    scanAfterNl s = true ↔
      ∃ a b, s = a ++ '\n' :: b ∧ matchKindSecretHere b = true := by
  induction s with
  | nil =>
    constructor
    · intro hcon
      cases hcon
    · rintro ⟨a, b, heq, _⟩
      cases a with
      | nil => cases heq
      | cons x xt => cases heq
  | cons c rest ih =>
    rw [scanAfterNl, Bool.or_eq_true, Bool.and_eq_true, ih]
    constructor
    · rintro (⟨hc, hm⟩ | ⟨a, b, rfl, hm⟩)
      · have hc' : c = '\n' := by simpa using hc
        subst hc'
        exact ⟨[], rest, rfl, hm⟩
      · exact ⟨c :: a, b, rfl, hm⟩
    · rintro ⟨a, b, heq, hm⟩
      cases a with
      | nil =>
        injection heq with h1 h2
        subst h1
        subst h2
        exact Or.inl ⟨by simp, hm⟩
      | cons x xt =>
        injection heq with h1 h2
        subst h1
        exact Or.inr ⟨xt, b, h2, hm⟩

/-- C3 (amended): a document is classified as a Secret exactly when the Go
regexp `(?m)^kind:\s*Secret\s*$` matches: `kind:` at the very start of a
line (column 0), optional whitespace, `Secret`, optional whitespace, then
the end of the line or text. Leading whitespace before `kind:` defeats the
match. -/
theorem isSecretDocument_iff_regexp_match (doc : Str) :
    isSecretDocument doc = true ↔ SpecKindSecretMatch doc := by
  rw [isSecretDocument, Bool.or_eq_true, matchKindSecretHere_iff, scanAfterNl_iff]
  constructor
  · rintro (⟨w1, w2, post, rfl, h1, h2, h3⟩ | ⟨a, b, rfl, hm⟩)
    · exact ⟨[], w1, w2, post, by simp, Or.inl rfl, h1, h2, h3⟩
    · obtain ⟨w1, w2, post, rfl, h1, h2, h3⟩ := (matchKindSecretHere_iff b).mp hm
      refine ⟨a ++ ['\n'], w1, w2, post, by simp, Or.inr ?_, h1, h2, h3⟩
      exact List.getLast?_concat _
  · rintro ⟨pre, w1, w2, post, rfl, hpre, h1, h2, h3⟩
    rcases hpre with rfl | hlast
    · exact Or.inl ⟨w1, w2, post, by simp, h1, h2, h3⟩
    · have hne : pre ≠ [] := by
        intro hnil
        rw [hnil] at hlast
        cases hlast
      have hsplit : pre = pre.dropLast ++ [pre.getLast hne] :=
        (List.dropLast_append_getLast hne).symm
      have hl : pre.getLast hne = '\n' := by
        have := List.getLast?_eq_getLast pre hne
        rw [hlast] at this
        injection this with h
        exact h.symm
      refine Or.inr ⟨pre.dropLast, kindTok ++ w1 ++ secretTok ++ w2 ++ post, ?_, ?_⟩
      · conv_lhs => rw [hsplit, hl]
        simp
      · exact (matchKindSecretHere_iff _).mpr ⟨w1, w2, post, rfl, h1, h2, h3⟩

/-- Counterexample to C3 as stated: this document has a line whose trimmed
content is exactly `kind: Secret`, yet because the line carries leading
whitespace the regexp does not classify it as a Secret, and `RedactSecrets`
leaves its data block untouched. -/
theorem isSecretDocument_trim_claim_false :
    ¬ ((isSecretDocument ("  kind: Secret\ndata:\n  a: b".toList) = true) ↔
        ∃ l ∈ splitNl ("  kind: Secret\ndata:\n  a: b".toList),
          trimSpace l = "kind: Secret".toList) ∧
    RedactSecrets ("  kind: Secret\ndata:\n  a: b".toList) =
      "  kind: Secret\ndata:\n  a: b".toList := by
  constructor
  · decide
  · decide

/-- Lines that match no data pattern pass through the loop unchanged while no
skip block is active. -/
theorem redactLines_nomatch_pfx (pre : List Str)
    (hpre : ∀ l ∈ pre, findDataPattern (trimSpace l) = none) :
    ∀ (rest : List Str) (i : Nat) (rf : Str),
      redactLines (pre ++ rest) i none rf = pre ++ redactLines rest (i + pre.length) none rf := by
  induction pre with
  | nil =>
    intro rest i rf
    simp
  | cons l pre ih =>
    intro rest i rf
    rw [List.cons_append,
      redactLines_cons_nomatch l (hpre l (List.mem_cons_self _ _)) _ _ _,
      ih (fun x hx => hpre x (List.mem_cons_of_mem _ hx)) rest (i + 1) rf]
    rw [show i + 1 + pre.length = i + (pre.length + 1) from by omega]
    rfl

/-- A run of the loop over non-matching lines with no active skip block
emits exactly those lines. -/
theorem redactLines_nomatch_all (ls : List Str)
    (h : ∀ l ∈ ls, findDataPattern (trimSpace l) = none) (i : Nat) (rf : Str) :
    redactLines ls i none rf = ls := by
  have hx := redactLines_nomatch_pfx ls h [] i rf
  rw [show redactLines [] (i + ls.length) none rf = [] from rfl, List.append_nil] at hx
  exact hx

/-- A line inside an active skip block (empty, or indented deeper than the
key) is dropped. -/
theorem redactLines_cons_skip (l : Str) (k : Nat) (h : l = [] ∨ k < countIndent l)
    (rest : List Str) (i : Nat) (rf : Str) :
    redactLines (l :: rest) i (some k) rf = redactLines rest (i + 1) (some k) rf := by
  rw [redactLines.eq_def]
  have hskip : (l.isEmpty || decide (k < countIndent l)) = true := by
    rcases h with rfl | h
    · simp
    · simp [h]
  simp [hskip]

/-- A whole block of inside lines is dropped. -/
theorem redactLines_skip_block (block : List Str) (k : Nat)
    (hblock : ∀ l ∈ block, l = [] ∨ k < countIndent l) :
    ∀ (rest : List Str) (i : Nat) (rf : Str),
      redactLines (block ++ rest) i (some k) rf =
        redactLines rest (i + block.length) (some k) rf := by
  induction block with
  | nil =>
    intro rest i rf
    simp
  | cons l block ih =>
    intro rest i rf
    rw [List.cons_append,
      redactLines_cons_skip l k (hblock l (List.mem_cons_self _ _)) _ _ _,
      ih (fun x hx => hblock x (List.mem_cons_of_mem _ hx)) rest (i + 1) rf]
    rw [show i + 1 + block.length = i + (block.length + 1) from by omega]
    rfl

/-- One-step evaluation of the loop body with no active skip block. -/
theorem redactLines_cons_eval (line : Str) (rest : List Str) (i : Nat) (rf : Str) :
    redactLines (line :: rest) i none rf =
      match findDataPattern (trimSpace line) with
      | some pat =>
        if isInlineEmpty (trimSpace line) then
          line :: placeholderLine (countIndent line) :: line ::
            redactLines rest (i + 1) none pat
        else
          line :: placeholderLine (countIndent line) ::
            redactLines rest (i + 1) (some (countIndent line)) []
      | none => line :: redactLines rest (i + 1) none rf := rfl

/-- The bare `data:` key line (block form) emits itself and the placeholder
and opens a skip block at its indentation. -/
theorem redactLines_cons_key (keyLine : Str) (hkey : trimSpace keyLine = "data:".toList)
    (rest : List Str) (i : Nat) (rf : Str) :
    redactLines (keyLine :: rest) i none rf =
      keyLine :: placeholderLine (countIndent keyLine) ::
        redactLines rest (i + 1) (some (countIndent keyLine)) [] := by
  rw [redactLines_cons_eval, hkey]
  rfl

/-- The first line at indentation at or above the key closes the skip block
and is emitted (when it matches no data pattern). -/
theorem redactLines_cons_resume (p : Str) (k : Nat) (hp : p ≠ [])
    (hind : countIndent p ≤ k) (hnm : findDataPattern (trimSpace p) = none)
    (rest : List Str) (i : Nat) (rf : Str) :
    redactLines (p :: rest) i (some k) rf = p :: redactLines rest (i + 1) none rf := by
  rw [redactLines.eq_def]
  have hskip : (p.isEmpty || decide (k < countIndent p)) = false := by
    have h1 : p.isEmpty = false := by simp [List.isEmpty_iff, hp]
    have h2 : decide (k < countIndent p) = false := by
      simp
      omega
    rw [h1, h2]
    rfl
  simp [hskip, hnm]

/-- C1: on a single-document Secret manifest whose lines decompose as
non-matching lines, a bare `data:` key, a deeper-indented (or blank) value
block, and a resumption tail (first line non-blank at indentation at most
the key's, no tail line matching a data key), `RedactSecrets` removes
exactly the block lines, inserts exactly one placeholder line at the key's
indentation plus two, and reproduces every other line byte-for-byte. -/
theorem redactSecrets_secret_data_block (m : Str) (pre block post : List Str) (keyLine : Str)
    (hone : splitParts m = [m])
    (hsecret : isSecretDocument m = true)
    (hlines : splitNl m = pre ++ keyLine :: (block ++ post))
    (hkey : trimSpace keyLine = "data:".toList)
    (hpre : ∀ l ∈ pre, findDataPattern (trimSpace l) = none)
    (hblock : ∀ l ∈ block, l = [] ∨ countIndent keyLine < countIndent l)
    (hpost : ∀ l ∈ post, findDataPattern (trimSpace l) = none)
    (hhead : match post with
      | [] => True
      | p :: _ => p ≠ [] ∧ countIndent p ≤ countIndent keyLine) :
    RedactSecrets m =
      joinNl (pre ++ keyLine :: placeholderLine (countIndent keyLine) :: post) := by
  have hstep1 : RedactSecrets m = redactSecretDocument m := by
    unfold RedactSecrets syncDocs
    rw [hone]
    show joinYAMLDocuments [redactDoc m] = _
    rw [redactDoc, if_pos hsecret]
    rfl
  rw [hstep1, redactSecretDocument, hlines]
  congr 1
  rw [redactLines_nomatch_pfx pre hpre _ 0 [],
    redactLines_cons_key keyLine hkey _ _ _,
    redactLines_skip_block block (countIndent keyLine) hblock _ _ _]
  cases post with
  | nil =>
    rfl
  | cons p ps =>
    obtain ⟨hp, hind⟩ := hhead
    rw [redactLines_cons_resume p (countIndent keyLine) hp hind
      (hpost p (List.mem_cons_self _ _)) _ _ _,
      redactLines_nomatch_all ps (fun x hx => hpost x (List.mem_cons_of_mem _ hx)) _ _]

/-- Witness for C1 on a concrete one-document Secret. -/
theorem redactSecrets_secret_data_block_witness :
    RedactSecrets ("kind: Secret\ndata:\n  a: b\ntype: Opaque".toList) =
      joinNl (["kind: Secret".toList] ++ "data:".toList ::
        placeholderLine (countIndent ("data:".toList)) :: ["type: Opaque".toList]) :=
  redactSecrets_secret_data_block ("kind: Secret\ndata:\n  a: b\ntype: Opaque".toList)
    ["kind: Secret".toList] ["  a: b".toList] ["type: Opaque".toList] ("data:".toList)
    (by decide) (by decide) (by decide) (by decide) (by decide) (by decide) (by decide)
    (by decide)
